import Mathlib

/-!
Verification of the BOLT #9 feature-flag core (`ln/features.rs`).

Shallow embedding: the sealed `Context` trait with its three implementations
becomes the closed inductive `ContextT`; a `Features<T>` value becomes a
`Features T` structure holding the little-endian storage bytes as a
`List Nat` (each byte a natural below 256); the registry's per-capability
constants become functions of a `Feature` record holding the odd bit index.
-/

/-- The sealed set of contexts in which features are applicable:
`init` (handshake), `node` (node announcement), `channel`
(channel announcement). -/
inductive ContextT where
  | init
  | node
  | channel
  deriving DecidableEq, Fintype

/-- A capability from the registry, determined by its odd ("optional")
bit index, as in `define_feature!($odd_bit, ...)`. -/
structure Feature where
  oddBit : Nat
  deriving DecidableEq

/-- The bit used to signify that the feature is required. -/
def Feature.EVEN_BIT (f : Feature) : Nat := f.oddBit - 1

/-- The bit used to signify that the feature is optional. -/
def Feature.ODD_BIT (f : Feature) : Nat := f.oddBit

/-- The byte where the feature is set. -/
def Feature.BYTE_OFFSET (f : Feature) : Nat := f.EVEN_BIT / 8

/-- The bitmask for the feature's required flag relative to `BYTE_OFFSET`. -/
def Feature.REQUIRED_MASK (f : Feature) : Nat :=
  1 <<< (f.EVEN_BIT - 8 * f.BYTE_OFFSET)

/-- The bitmask for the feature's optional flag relative to `BYTE_OFFSET`. -/
def Feature.OPTIONAL_MASK (f : Feature) : Nat :=
  1 <<< (f.ODD_BIT - 8 * f.BYTE_OFFSET)

/-- Feature flags for `option_data_loss_protect` (odd bit 1). -/
def DataLossProtect : Feature := ⟨1⟩

/-- Feature flags for `initial_routing_sync` (odd bit 3). -/
def InitialRoutingSync : Feature := ⟨3⟩

/-- Feature flags for `option_upfront_shutdown_script` (odd bit 5). -/
def UpfrontShutdownScript : Feature := ⟨5⟩

/-- Feature flags for `var_onion_optin` (odd bit 9). -/
def VariableLengthOnion : Feature := ⟨9⟩

/-- Feature flags for `payment_secret` (odd bit 15). -/
def PaymentSecret : Feature := ⟨15⟩

/-- Feature flags for `basic_mpp` (odd bit 17). -/
def BasicMPP : Feature := ⟨17⟩

/-- `KNOWN_FEATURE_FLAGS` per context: byte `i` is the bitwise-OR of the
required masks of required features and optional masks of optional features
at byte offset `i`, exactly as the `define_context!` macro expands. All
features of `InitContext` and `NodeContext` are optional; `ChannelContext`
has no features. -/
def KNOWN_FEATURE_FLAGS : ContextT → List Nat
  | .init =>
    [0 ||| DataLossProtect.OPTIONAL_MASK ||| InitialRoutingSync.OPTIONAL_MASK
       ||| UpfrontShutdownScript.OPTIONAL_MASK,
     0 ||| VariableLengthOnion.OPTIONAL_MASK ||| PaymentSecret.OPTIONAL_MASK,
     0 ||| BasicMPP.OPTIONAL_MASK]
  | .node =>
    [0 ||| DataLossProtect.OPTIONAL_MASK ||| UpfrontShutdownScript.OPTIONAL_MASK,
     0 ||| VariableLengthOnion.OPTIONAL_MASK ||| PaymentSecret.OPTIONAL_MASK,
     0 ||| BasicMPP.OPTIONAL_MASK]
  | .channel => []

/-- `KNOWN_FEATURE_MASK` per context: like `KNOWN_FEATURE_FLAGS` but both
bits of every known feature contribute, regardless of required/optional. -/
def KNOWN_FEATURE_MASK : ContextT → List Nat
  | .init =>
    [0 ||| (DataLossProtect.REQUIRED_MASK ||| DataLossProtect.OPTIONAL_MASK)
       ||| (InitialRoutingSync.REQUIRED_MASK ||| InitialRoutingSync.OPTIONAL_MASK)
       ||| (UpfrontShutdownScript.REQUIRED_MASK ||| UpfrontShutdownScript.OPTIONAL_MASK),
     0 ||| (VariableLengthOnion.REQUIRED_MASK ||| VariableLengthOnion.OPTIONAL_MASK)
       ||| (PaymentSecret.REQUIRED_MASK ||| PaymentSecret.OPTIONAL_MASK),
     0 ||| (BasicMPP.REQUIRED_MASK ||| BasicMPP.OPTIONAL_MASK)]
  | .node =>
    [0 ||| (DataLossProtect.REQUIRED_MASK ||| DataLossProtect.OPTIONAL_MASK)
       ||| (UpfrontShutdownScript.REQUIRED_MASK ||| UpfrontShutdownScript.OPTIONAL_MASK),
     0 ||| (VariableLengthOnion.REQUIRED_MASK ||| VariableLengthOnion.OPTIONAL_MASK)
       ||| (PaymentSecret.REQUIRED_MASK ||| PaymentSecret.OPTIONAL_MASK),
     0 ||| (BasicMPP.REQUIRED_MASK ||| BasicMPP.OPTIONAL_MASK)]
  | .channel => []

/-- `Vec::resize(n, v)`: truncate to `n` elements or extend with copies
of `v` up to length `n`. -/
def resize (xs : List Nat) (n : Nat) (v : Nat) : List Nat :=
  xs.take n ++ List.replicate (n - xs.length) v

/-- `supports_feature`: the flags vector has a byte at `BYTE_OFFSET` and
that byte has the required or optional mask bit set. -/
def supports_feature (f : Feature) (flags : List Nat) : Bool :=
  decide (flags.length > f.BYTE_OFFSET) &&
    decide ((flags.getD f.BYTE_OFFSET 0 &&& (f.REQUIRED_MASK ||| f.OPTIONAL_MASK)) ≠ 0)

/-- `set_optional_bit`: resize the vector with zero bytes so the byte at
`BYTE_OFFSET` exists, then OR in the optional mask. -/
def set_optional_bit (f : Feature) (flags : List Nat) : List Nat :=
  let fl := if flags.length ≤ f.BYTE_OFFSET then resize flags (f.BYTE_OFFSET + 1) 0 else flags
  fl.set f.BYTE_OFFSET (fl.getD f.BYTE_OFFSET 0 ||| f.OPTIONAL_MASK)

/-- `clear_bits`: when the vector reaches `BYTE_OFFSET`, AND the byte there
with the u8 complements of the required and optional masks; otherwise leave
the vector unchanged. -/
def clear_bits (f : Feature) (flags : List Nat) : List Nat :=
  if flags.length > f.BYTE_OFFSET then
    flags.set f.BYTE_OFFSET
      ((flags.getD f.BYTE_OFFSET 0 &&& (255 ^^^ f.REQUIRED_MASK)) &&& (255 ^^^ f.OPTIONAL_MASK))
  else flags

/-- `Features<T>`: the little-endian storage bytes, tagged by context. -/
structure Features (T : ContextT) where
  flags : List Nat
  deriving DecidableEq

/-- `Features::empty`: a blank vector with no features set. -/
def Features.empty (T : ContextT) : Features T := ⟨[]⟩

/-- `Features::known`: the context's `KNOWN_FEATURE_FLAGS`. -/
def Features.known (T : ContextT) : Features T := ⟨KNOWN_FEATURE_FLAGS T⟩

/-- `iter().enumerate().any(...)` over bytes, carrying the index. -/
def anyWithIndex (f : Nat → Nat → Bool) : Nat → List Nat → Bool
  | _, [] => false
  | i, byte :: rest => f i byte || anyWithIndex f (i + 1) rest

/-- The `unknown_features` binding of the bulk scans: the u8 complement of
the known mask's byte at `i`, or all ones past the mask's end. -/
def unknown_features (T : ContextT) (i : Nat) : Nat :=
  if i < (KNOWN_FEATURE_MASK T).length
  then 255 ^^^ (KNOWN_FEATURE_MASK T).getD i 0
  else 0b11111111

/-- The per-byte test of `requires_unknown_bits`: a required (even) bit is
set at a position the context's known mask does not cover. -/
def requiresByte (T : ContextT) (i byte : Nat) : Bool :=
  decide ((byte &&& (0b01010101 &&& unknown_features T i)) ≠ 0)

/-- The per-byte test of `supports_unknown_bits`: any bit is set at a
position the context's known mask does not cover. -/
def supportsByte (T : ContextT) (i byte : Nat) : Bool :=
  decide ((byte &&& unknown_features T i) ≠ 0)

/-- `requires_unknown_bits`: some byte has a required (even) bit set that the
context's known mask does not cover; bytes past the mask are fully unknown. -/
def Features.requires_unknown_bits {T : ContextT} (v : Features T) : Bool :=
  anyWithIndex (requiresByte T) 0 v.flags

/-- `supports_unknown_bits`: some byte has any bit set that the context's
known mask does not cover; bytes past the mask are fully unknown. -/
def Features.supports_unknown_bits {T : ContextT} (v : Features T) : Bool :=
  anyWithIndex (supportsByte T) 0 v.flags

/-- Modelled from the spec: the generic serializer writes a `u16` as two
big-endian bytes; the `as u16` cast reduces the value modulo 2^16. The
`u16` read/write primitives live in `util::ser`, outside this file. -/
def u16write (n : Nat) : List Nat := [n % 65536 / 256, n % 65536 % 256]

/-- `Writeable::write`: the length as `u16`, then the storage bytes
reversed back to big-endian wire order. -/
def Features.write {T : ContextT} (v : Features T) : List Nat :=
  u16write v.flags.length ++ v.flags.reverse

/-- Modelled from the spec: reading `n` raw bytes from the stream, failing
when the stream is exhausted (the length-prefixed `Vec<u8>` reader lives in
`util::ser`, outside this file). -/
def readBytes : Nat → List Nat → Option (List Nat × List Nat)
  | 0, s => some ([], s)
  | _ + 1, [] => none
  | n + 1, byte :: s =>
    match readBytes n s with
    | none => none
    | some (bs, rest) => some (byte :: bs, rest)

/-- Modelled from the spec: reading a big-endian `u16` from the stream,
failing when fewer than two bytes remain. -/
def readU16 : List Nat → Option (Nat × List Nat)
  | b1 :: b0 :: s => some (b1 * 256 + b0, s)
  | _ => none

/-- `Readable::read`: read the length-prefixed wire bytes, then reverse
them into little-endian storage order. -/
def Features.read (T : ContextT) (s : List Nat) : Option (Features T × List Nat) :=
  match readU16 s with
  | none => none
  | some (len, s1) =>
    match readBytes len s1 with
    | none => none
    | some (bs, rest) => some (⟨bs.reverse⟩, rest)

/-- `InitFeatures::write_up_to_13`: emit `min 2 len` as the `u16` length,
then the covered bytes in wire order, masking byte 1 to bits 8..13. -/
def write_up_to_13 (v : Features ContextT.init) : List Nat :=
  u16write (min 2 v.flags.length) ++
    (List.range (min 2 v.flags.length)).reverse.map (fun i =>
      if i = 0 then v.flags.getD 0 0 else v.flags.getD i 0 &&& 0b00111111)

/-- The in-place loop of `InitFeatures::or`: `zip` the resized left operand
with the right one, OR-ing pairwise and keeping the left tail. -/
def orLoop : List Nat → List Nat → List Nat
  | xs, [] => xs
  | [], _ :: _ => []
  | x :: xs, y :: ys => (x ||| y) :: orLoop xs ys

/-- `InitFeatures::or`: resize the left operand with zero bytes to the
longer length, then OR byte-by-byte with the right operand. -/
def Features.or (a b : Features ContextT.init) : Features ContextT.init :=
  ⟨orLoop (resize a.flags (max a.flags.length b.flags.length) 0) b.flags⟩

/-- The `enumerate` loop of `with_known_relevant_init_flags`: keep
`byte &&& mask[i]` for every index below the mask's length. -/
def projectLoop (mask : List Nat) : Nat → List Nat → List Nat
  | _, [] => []
  | i, byte :: rest =>
    (if i < mask.length then [byte &&& mask.getD i 0] else []) ++
      projectLoop mask (i + 1) rest

/-- `Features::with_known_relevant_init_flags`: project a handshake vector
into context `T`, keeping only bytes within and bits selected by `T`'s
known feature mask. -/
def Features.with_known_relevant_init_flags (T : ContextT)
    (init_ctx : Features ContextT.init) : Features T :=
  ⟨projectLoop (KNOWN_FEATURE_MASK T) 0 init_ctx.flags⟩

/-- `InitFeatures::initial_routing_sync`: query the registry for the
initial-routing-sync capability. -/
def Features.initial_routing_sync (v : Features ContextT.init) : Bool :=
  supports_feature InitialRoutingSync v.flags

/-- Symmetric zero-padded byte-wise OR: the denotation `InitFeatures::or`
computes (proved below). -/
def zipOr : List Nat → List Nat → List Nat
  | xs, [] => xs
  | [], ys => ys
  | x :: xs, y :: ys => (x ||| y) :: zipOr xs ys

/-- The vectors produced through the public constructors: `empty`, `known`,
reading the wire form (a byte stream), cross-context projection, and
or-merging two produced handshake vectors. -/
inductive Produced : (T : ContextT) → Features T → Prop where
  | empty (T : ContextT) : Produced T (Features.empty T)
  | known (T : ContextT) : Produced T (Features.known T)
  | readWire (T : ContextT) (s : List Nat) (v : Features T) (rest : List Nat) :
      (∀ b ∈ s, b < 256) → Features.read T s = some (v, rest) → Produced T v
  | project (T : ContextT) (src : Features ContextT.init) :
      Produced T (Features.with_known_relevant_init_flags T src)
  | orMerge (a b : Features ContextT.init) : Produced ContextT.init a →
      Produced ContextT.init b → Produced ContextT.init (a.or b)

lemma projectLoop_length (mask l : List Nat) : ∀ s : Nat,
    (projectLoop mask s l).length = min l.length (mask.length - s) := by
  induction l with
  | nil => intro s; simp [projectLoop]
  | cons b rest ih =>
    intro s
    by_cases h : s < mask.length
    · simp only [projectLoop, if_pos h, List.length_append, List.length_cons, ih (s + 1)]
      simp
      omega
    · simp only [projectLoop, if_neg h, List.nil_append, List.length_cons, ih (s + 1)]
      omega

/-- C2: in each of the three contexts, the `known()` vector neither
requires nor supports unknown bits. -/
theorem known_no_unknown_bits : ∀ T : ContextT,
    (Features.known T).requires_unknown_bits = false ∧
    (Features.known T).supports_unknown_bits = false := by decide

/-- C4: on storage bytes `[0x02, 0x82, 0x02]`, `write_up_to_13` emits the
big-endian length 2 and then exactly two content bytes, the byte covering
bits 8..13 masked with `0b00111111` (`0x82 &&& 0x3f = 0x02`) and the third
storage byte dropped. -/
theorem write_up_to_13_example :
    write_up_to_13 ⟨[0x02, 0x82, 0x02]⟩ = [0x00, 0x02, 0x02, 0x02] := by decide

/-- C5: projecting the handshake `known()` vector into the node context
yields exactly the three bytes `{0b00100010, 0b10000010, 0b00000010}`, and
reinterpreting those bytes as a handshake vector reports
`initial_routing_sync = false`. -/
theorem node_with_known_relevant_init_flags :
    (Features.with_known_relevant_init_flags ContextT.node (Features.known ContextT.init)).flags
      = [0b00100010, 0b10000010, 0b00000010] ∧
    Features.initial_routing_sync
      ⟨(Features.with_known_relevant_init_flags ContextT.node (Features.known ContextT.init)).flags⟩
      = false := by decide

/-- C3 counterexample: it is not the case that every handshake vector gets
a declared length of exactly 2 from `write_up_to_13`; the empty vector
declares length 0. -/
theorem write_up_to_13_len_not_always_two :
    ¬ ∀ v : Features ContextT.init, (write_up_to_13 v).take 2 = u16write 2 := by
  intro h
  have h0 := h (Features.empty ContextT.init)
  revert h0
  decide

/-- C3 amended: `write_up_to_13` emits a 2-byte length prefix whose declared
value is `min 2 (storage length)`; in particular it is exactly 2 whenever at
least two storage bytes exist. -/
theorem write_up_to_13_declared_len (v : Features ContextT.init) :
    (write_up_to_13 v).take 2 = u16write (min 2 v.flags.length) ∧
    (2 ≤ v.flags.length → (write_up_to_13 v).take 2 = u16write 2) := by
  have h1 : (write_up_to_13 v).take 2 = u16write (min 2 v.flags.length) := by
    simp only [write_up_to_13]
    exact List.take_left' rfl
  refine ⟨h1, fun h => ?_⟩
  rw [h1, Nat.min_eq_left h]

theorem write_up_to_13_declared_len_witness :
    (write_up_to_13 ⟨[1, 2, 3]⟩).take 2 = u16write 2 :=
  (write_up_to_13_declared_len ⟨[1, 2, 3]⟩).2 (by decide)

/-- C10: projection keeps `min (source length) (mask length)` bytes: a
source shorter than the target context's known mask yields a result of the
source's length, and projecting into the channel context (empty mask)
always yields the empty vector. -/
theorem with_known_relevant_init_flags_length (T : ContextT) (v : Features ContextT.init) :
    (Features.with_known_relevant_init_flags T v).flags.length
      = min v.flags.length (KNOWN_FEATURE_MASK T).length ∧
    (Features.with_known_relevant_init_flags ContextT.channel v).flags = [] := by
  constructor
  · simpa using projectLoop_length (KNOWN_FEATURE_MASK T) v.flags 0
  · have h := projectLoop_length (KNOWN_FEATURE_MASK ContextT.channel) v.flags 0
    simp [KNOWN_FEATURE_MASK] at h
    exact List.length_eq_zero.mp (by simpa [Features.with_known_relevant_init_flags] using h)

lemma zipOr_nil_left (ys : List Nat) : zipOr [] ys = ys := by
  cases ys <;> rfl

lemma zipOr_nil_right (xs : List Nat) : zipOr xs [] = xs := by
  cases xs <;> rfl

lemma orLoop_replicate_zero (ys : List Nat) : orLoop (List.replicate ys.length 0) ys = ys := by
  induction ys with
  | nil => rfl
  | cons y ys ih => simp [List.replicate_succ, orLoop, ih, Nat.zero_or]

lemma resize_of_le (xs : List Nat) (n v : Nat) (h : xs.length ≤ n) :
    resize xs n v = xs ++ List.replicate (n - xs.length) v := by
  simp [resize, List.take_of_length_le h]

lemma orLoop_pad (xs : List Nat) : ∀ ys : List Nat,
    orLoop (xs ++ List.replicate (max xs.length ys.length - xs.length) 0) ys = zipOr xs ys := by
  induction xs with
  | nil =>
    intro ys
    cases ys with
    | nil => rfl
    | cons y ys =>
      simp only [List.nil_append, List.length_nil, List.length_cons, Nat.zero_max, Nat.sub_zero,
        zipOr_nil_left]
      exact orLoop_replicate_zero (y :: ys)
  | cons x xs ih =>
    intro ys
    cases ys with
    | nil =>
      simp [orLoop, zipOr_nil_right]
    | cons y ys =>
      have hm : max (x :: xs).length (y :: ys).length - (x :: xs).length
          = max xs.length ys.length - xs.length := by
        simp only [List.length_cons]
        omega
      rw [hm]
      simp only [List.cons_append, orLoop, zipOr, List.append_eq]
      rw [ih ys]

lemma or_flags_eq_zipOr (a b : Features ContextT.init) :
    (a.or b).flags = zipOr a.flags b.flags := by
  show orLoop (resize a.flags (max a.flags.length b.flags.length) 0) b.flags = _
  rw [resize_of_le _ _ _ (Nat.le_max_left _ _)]
  exact orLoop_pad a.flags b.flags

lemma zipOr_comm (xs : List Nat) : ∀ ys : List Nat, zipOr xs ys = zipOr ys xs := by
  induction xs with
  | nil => intro ys; rw [zipOr_nil_left, zipOr_nil_right]
  | cons x xs ih =>
    intro ys
    cases ys with
    | nil => rw [zipOr_nil_left, zipOr_nil_right]
    | cons y ys => simp only [zipOr, Nat.or_comm x y, ih ys]

lemma zipOr_assoc (xs : List Nat) : ∀ ys zs : List Nat,
    zipOr (zipOr xs ys) zs = zipOr xs (zipOr ys zs) := by
  induction xs with
  | nil => intro ys zs; rw [zipOr_nil_left, zipOr_nil_left]
  | cons x xs ih =>
    intro ys zs
    cases ys with
    | nil => rw [zipOr_nil_right, zipOr_nil_left]
    | cons y ys =>
      cases zs with
      | nil => rw [zipOr_nil_right, zipOr_nil_right]
      | cons z zs => simp only [zipOr, Nat.or_assoc, ih ys zs]

lemma zipOr_length (xs : List Nat) : ∀ ys : List Nat,
    (zipOr xs ys).length = max xs.length ys.length := by
  induction xs with
  | nil => intro ys; rw [zipOr_nil_left]; simp
  | cons x xs ih =>
    intro ys
    cases ys with
    | nil => rw [zipOr_nil_right]; simp
    | cons y ys => simp only [zipOr, List.length_cons, ih ys]; omega

lemma zipOr_getD (xs : List Nat) : ∀ (ys : List Nat) (i : Nat),
    (zipOr xs ys).getD i 0 = xs.getD i 0 ||| ys.getD i 0 := by
  induction xs with
  | nil => intro ys i; rw [zipOr_nil_left]; simp
  | cons x xs ih =>
    intro ys i
    cases ys with
    | nil => rw [zipOr_nil_right]; simp
    | cons y ys =>
      cases i with
      | zero => simp [zipOr]
      | succ j => simp only [zipOr, List.getD_cons_succ, ih ys j]

/-- C7: `or` on handshake vectors is commutative and associative on byte
content, `or(v, empty())` equals `v`, and `or` zero-extends the shorter
operand to the longer length and ORs byte-by-byte (length is the max, each
byte is the pointwise OR with implicit zeros). -/
theorem or_laws (a b c : Features ContextT.init) :
    (a.or b).flags = (b.or a).flags ∧
    ((a.or b).or c).flags = (a.or (b.or c)).flags ∧
    a.or (Features.empty ContextT.init) = a ∧
    (a.or b).flags.length = max a.flags.length b.flags.length ∧
    ∀ i : Nat, (a.or b).flags.getD i 0 = a.flags.getD i 0 ||| b.flags.getD i 0 := by
  refine ⟨?_, ?_, ?_, ?_, ?_⟩
  · rw [or_flags_eq_zipOr, or_flags_eq_zipOr, zipOr_comm]
  · rw [or_flags_eq_zipOr, or_flags_eq_zipOr, or_flags_eq_zipOr, or_flags_eq_zipOr,
      zipOr_assoc]
  · have h : (a.or (Features.empty ContextT.init)).flags = a.flags := by
      rw [or_flags_eq_zipOr]
      exact zipOr_nil_right a.flags
    cases ha : a.or (Features.empty ContextT.init)
    cases a
    simpa [ha] using h
  · rw [or_flags_eq_zipOr, zipOr_length]
  · intro i
    rw [or_flags_eq_zipOr, zipOr_getD]

lemma getD_eq_zero_of_le (l : List Nat) (k : Nat) (h : l.length ≤ k) : l.getD k 0 = 0 := by
  simp [List.getD_eq_getElem?_getD, List.getElem?_eq_none h]

lemma getD_set_self_of_lt (l : List Nat) (i a : Nat) (h : i < l.length) :
    (l.set i a).getD i 0 = a := by
  simp [List.getD_eq_getElem?_getD, List.getElem?_set_self h]

lemma getD_set_ne (l : List Nat) (i k a : Nat) (h : i ≠ k) :
    (l.set i a).getD k 0 = l.getD k 0 := by
  simp [List.getD_eq_getElem?_getD, List.getElem?_set_ne h]

lemma getD_append_replicate_zero (xs : List Nat) (m k : Nat) :
    (xs ++ List.replicate m 0).getD k 0 = xs.getD k 0 := by
  rcases Nat.lt_or_ge k xs.length with h | h
  · simp [List.getD_eq_getElem?_getD, List.getElem?_append_left h]
  · rw [List.getD_eq_getElem?_getD, List.getD_eq_getElem?_getD,
      List.getElem?_append_right h, List.getElem?_eq_none h, List.getElem?_replicate]
    by_cases hk : k - xs.length < m <;> simp [hk]

lemma length_resize (xs : List Nat) (n v : Nat) : (resize xs n v).length = n := by
  simp [resize]
  omega

/-- C8: for every capability, `supports_feature` returns true iff the flags
vector has a byte at `BYTE_OFFSET` and that byte has the required- or
optional-mask bit set; on a vector shorter than `BYTE_OFFSET + 1` it
returns false rather than failing. -/
theorem supports_feature_spec (f : Feature) (flags : List Nat) :
    (supports_feature f flags = true ↔
      f.BYTE_OFFSET < flags.length ∧
        flags.getD f.BYTE_OFFSET 0 &&& (f.REQUIRED_MASK ||| f.OPTIONAL_MASK) ≠ 0) ∧
    (flags.length ≤ f.BYTE_OFFSET → supports_feature f flags = false) := by
  constructor
  · simp [supports_feature]
  · intro h
    simp only [supports_feature, Bool.and_eq_false_iff, decide_eq_false_iff_not]
    left
    omega

theorem supports_feature_spec_witness :
    supports_feature DataLossProtect [2] = true ∧ supports_feature BasicMPP [2] = false :=
  ⟨(supports_feature_spec DataLossProtect [2]).1.mpr (by decide),
   (supports_feature_spec BasicMPP [2]).2 (by decide)⟩

/-- C9: `set_optional_bit` grows the vector with zero bytes so the byte at
`BYTE_OFFSET` exists and ORs in the optional mask, changing no other byte;
`clear_bits` clears exactly the required- and optional-mask bits at
`BYTE_OFFSET` when the vector is long enough and is a no-op otherwise,
leaving every other byte and the length unchanged. -/
theorem set_clear_bits_spec (f : Feature) (flags : List Nat) :
    (set_optional_bit f flags).length = max flags.length (f.BYTE_OFFSET + 1) ∧
    (∀ i : Nat, i ≠ f.BYTE_OFFSET →
      (set_optional_bit f flags).getD i 0 = flags.getD i 0) ∧
    (set_optional_bit f flags).getD f.BYTE_OFFSET 0
      = flags.getD f.BYTE_OFFSET 0 ||| f.OPTIONAL_MASK ∧
    (clear_bits f flags).length = flags.length ∧
    (∀ i : Nat, i ≠ f.BYTE_OFFSET →
      (clear_bits f flags).getD i 0 = flags.getD i 0) ∧
    (clear_bits f flags).getD f.BYTE_OFFSET 0
      = (flags.getD f.BYTE_OFFSET 0 &&& (255 ^^^ f.REQUIRED_MASK)) &&& (255 ^^^ f.OPTIONAL_MASK) ∧
    (flags.length ≤ f.BYTE_OFFSET → clear_bits f flags = flags) := by
  by_cases hlen : flags.length ≤ f.BYTE_OFFSET
  · have hset : set_optional_bit f flags
        = (resize flags (f.BYTE_OFFSET + 1) 0).set f.BYTE_OFFSET
            ((resize flags (f.BYTE_OFFSET + 1) 0).getD f.BYTE_OFFSET 0 ||| f.OPTIONAL_MASK) := by
      simp [set_optional_bit, if_pos hlen]
    have hclear : clear_bits f flags = flags := by
      simp [clear_bits, Nat.not_lt.mpr hlen]
    have hres := resize_of_le flags (f.BYTE_OFFSET + 1) 0 (by omega)
    refine ⟨?_, ?_, ?_, ?_, ?_, ?_, fun _ => hclear⟩
    · rw [hset, List.length_set, length_resize]
      omega
    · intro i hi
      rw [hset, getD_set_ne _ _ _ _ (fun hh => hi hh.symm), hres, getD_append_replicate_zero]
    · rw [hset, getD_set_self_of_lt, hres, getD_append_replicate_zero]
      rw [length_resize]
      omega
    · rw [hclear]
    · intro i _
      rw [hclear]
    · rw [hclear, getD_eq_zero_of_le _ _ hlen]
      simp [Nat.zero_and]
  · have hset : set_optional_bit f flags
        = flags.set f.BYTE_OFFSET (flags.getD f.BYTE_OFFSET 0 ||| f.OPTIONAL_MASK) := by
      simp [set_optional_bit, if_neg hlen]
    have hoff : f.BYTE_OFFSET < flags.length := by omega
    have hclear : clear_bits f flags
        = flags.set f.BYTE_OFFSET
            ((flags.getD f.BYTE_OFFSET 0 &&& (255 ^^^ f.REQUIRED_MASK)) &&& (255 ^^^ f.OPTIONAL_MASK)) := by
      simp [clear_bits, hoff]
    refine ⟨?_, ?_, ?_, ?_, ?_, ?_, fun hh => absurd hh hlen⟩
    · rw [hset, List.length_set]
      omega
    · intro i hi
      rw [hset, getD_set_ne _ _ _ _ (fun hh => hi hh.symm)]
    · rw [hset, getD_set_self_of_lt _ _ _ hoff]
    · rw [hclear, List.length_set]
    · intro i hi
      rw [hclear, getD_set_ne _ _ _ _ (fun hh => hi hh.symm)]
    · rw [hclear, getD_set_self_of_lt _ _ _ hoff]

theorem set_clear_bits_spec_witness :
    (set_optional_bit VariableLengthOnion [5]).getD 0 0 = 5 ∧
    clear_bits VariableLengthOnion [5] = [5] :=
  ⟨(set_clear_bits_spec VariableLengthOnion [5]).2.1 0 (by decide),
   (set_clear_bits_spec VariableLengthOnion [5]).2.2.2.2.2.2 (by decide)⟩

lemma anyWithIndex_replicate_zero (f : Nat → Nat → Bool) (h : ∀ k, f k 0 = false) :
    ∀ (n s : Nat) (rest : List Nat),
      anyWithIndex f s (List.replicate n 0 ++ rest) = anyWithIndex f (s + n) rest := by
  intro n
  induction n with
  | zero => intro s rest; simp
  | succ m ih =>
    intro s rest
    simp only [List.replicate_succ, List.cons_append, anyWithIndex, h s, Bool.false_or,
      List.append_eq]
    rw [ih (s + 1) rest, show s + 1 + m = s + (m + 1) from by omega]

lemma anyWithIndex_replicate_zero_nil (f : Nat → Nat → Bool) (h : ∀ k, f k 0 = false)
    (n s : Nat) : anyWithIndex f s (List.replicate n 0) = false := by
  have hh := anyWithIndex_replicate_zero f h n s []
  simpa [anyWithIndex] using hh

lemma requiresByte_zero (T : ContextT) : ∀ k, requiresByte T k 0 = false := by
  intro k
  simp [requiresByte]

lemma supportsByte_zero (T : ContextT) : ∀ k, supportsByte T k 0 = false := by
  intro k
  simp [supportsByte]

/-- C6: in every context, a vector whose only set bit is bit `b` of a byte
at index `i` at or beyond the known mask's length supports unknown bits,
and requires unknown bits exactly when the overall bit index `8 * i + b`
is even. -/
theorem unknown_bits_beyond_known_mask (T : ContextT) (i j b : Nat) (hb : b < 8)
    (hi : (KNOWN_FEATURE_MASK T).length ≤ i) :
    Features.supports_unknown_bits
      (⟨List.replicate i 0 ++ (1 <<< b) :: List.replicate j 0⟩ : Features T) = true ∧
    Features.requires_unknown_bits
      (⟨List.replicate i 0 ++ (1 <<< b) :: List.replicate j 0⟩ : Features T)
      = decide ((8 * i + b) % 2 = 0) := by
  have hnot : ¬ i < (KNOWN_FEATURE_MASK T).length := Nat.not_lt.mpr hi
  constructor
  · show anyWithIndex (supportsByte T) 0 _ = true
    rw [anyWithIndex_replicate_zero (supportsByte T) (supportsByte_zero T) i 0]
    simp only [Nat.zero_add, anyWithIndex,
      anyWithIndex_replicate_zero_nil (supportsByte T) (supportsByte_zero T) j (i + 1),
      Bool.or_false]
    simp only [supportsByte, unknown_features, if_neg hnot]
    rw [decide_eq_true_eq]
    interval_cases b <;> decide
  · show anyWithIndex (requiresByte T) 0 _ = _
    rw [anyWithIndex_replicate_zero (requiresByte T) (requiresByte_zero T) i 0]
    simp only [Nat.zero_add, anyWithIndex,
      anyWithIndex_replicate_zero_nil (requiresByte T) (requiresByte_zero T) j (i + 1),
      Bool.or_false]
    simp only [requiresByte, unknown_features, if_neg hnot]
    rw [show (8 * i + b) % 2 = b % 2 from by omega]
    interval_cases b <;> decide

theorem unknown_bits_beyond_known_mask_witness :
    Features.supports_unknown_bits
      (⟨List.replicate 3 0 ++ (1 <<< 0) :: List.replicate 0 0⟩ : Features ContextT.init) = true ∧
    Features.requires_unknown_bits
      (⟨List.replicate 3 0 ++ (1 <<< 0) :: List.replicate 0 0⟩ : Features ContextT.init)
      = decide ((8 * 3 + 0) % 2 = 0) :=
  unknown_bits_beyond_known_mask ContextT.init 3 0 0 (by decide) (by decide)

lemma readBytes_append (l rest : List Nat) : readBytes l.length (l ++ rest) = some (l, rest) := by
  induction l with
  | nil => rfl
  | cons b t ih => simp [readBytes, ih]

lemma readBytes_length : ∀ (n : Nat) (s bs rest : List Nat),
    readBytes n s = some (bs, rest) → bs.length = n := by
  intro n
  induction n with
  | zero =>
    intro s bs rest h
    simp only [readBytes, Option.some.injEq, Prod.mk.injEq] at h
    rw [← h.1]
    rfl
  | succ m ih =>
    intro s bs rest h
    cases s with
    | nil => simp [readBytes] at h
    | cons byte s1 =>
      simp only [readBytes] at h
      cases hm : readBytes m s1 with
      | none => rw [hm] at h; simp at h
      | some p =>
        rw [hm] at h
        simp only [Option.some.injEq, Prod.mk.injEq] at h
        rw [← h.1, List.length_cons, ih s1 p.1 p.2 (by rw [hm])]

lemma read_shape {T : ContextT} {s : List Nat} {v : Features T} {rest : List Nat}
    (h : Features.read T s = some (v, rest)) :
    ∃ b1 b0 s1 bs, s = b1 :: b0 :: s1 ∧
      readBytes (b1 * 256 + b0) s1 = some (bs, rest) ∧ v = ⟨bs.reverse⟩ := by
  cases s with
  | nil => simp [Features.read, readU16] at h
  | cons b1 s0 =>
    cases s0 with
    | nil => simp [Features.read, readU16] at h
    | cons b0 s1 =>
      simp only [Features.read, readU16] at h
      cases hb : readBytes (b1 * 256 + b0) s1 with
      | none => rw [hb] at h; simp at h
      | some p =>
        rw [hb] at h
        simp only [Option.some.injEq, Prod.mk.injEq] at h
        exact ⟨b1, b0, s1, p.1, rfl, by rw [hb, ← h.2], h.1.symm⟩

lemma orLoop_length : ∀ xs ys : List Nat, (orLoop xs ys).length = xs.length := by
  intro xs
  induction xs with
  | nil => intro ys; cases ys <;> rfl
  | cons x t ih =>
    intro ys
    cases ys with
    | nil => rfl
    | cons y ys => simp [orLoop, ih ys]

lemma Produced.length_lt {T : ContextT} {v : Features T} (h : Produced T v) :
    v.flags.length < 65536 := by
  induction h with
  | empty T => simp [Features.empty]
  | known T => cases T <;> decide
  | readWire T s v rest hbytes hread =>
    obtain ⟨b1, b0, s1, bs, hs, hrb, hv⟩ := read_shape hread
    have hb1 : b1 < 256 := hbytes b1 (by rw [hs]; exact List.mem_cons_self _ _)
    have hb0 : b0 < 256 := hbytes b0 (by rw [hs]; exact List.mem_cons_of_mem _ (List.mem_cons_self _ _))
    have hlen := readBytes_length _ _ _ _ hrb
    rw [hv]
    simp only [List.length_reverse, hlen]
    omega
  | project T src =>
    have h := projectLoop_length (KNOWN_FEATURE_MASK T) src.flags 0
    show (projectLoop (KNOWN_FEATURE_MASK T) 0 src.flags).length < 65536
    rw [h]
    cases T <;> simp [KNOWN_FEATURE_MASK]
  | orMerge a b ha hb iha ihb =>
    show (orLoop (resize a.flags (max a.flags.length b.flags.length) 0) b.flags).length < 65536
    rw [orLoop_length, length_resize]
    omega

/-- C1: round-trip law. For every vector produced through the public
constructors (`empty`, `known`, reading the wire form, projection,
or-merge), writing it and reading the produced bytes back yields the very
same storage byte sequence, with the stream fully consumed. -/
theorem features_write_read_roundtrip {T : ContextT} (v : Features T) (h : Produced T v) :
    Features.read T (Features.write v) = some (v, []) := by
  have hlen := Produced.length_lt h
  have hmod : v.flags.length % 65536 = v.flags.length := Nat.mod_eq_of_lt hlen
  show Features.read T (u16write v.flags.length ++ v.flags.reverse) = _
  simp only [u16write, hmod, List.cons_append, List.nil_append]
  simp only [Features.read, readU16]
  rw [Nat.div_add_mod']
  have hr : readBytes v.flags.length v.flags.reverse = some (v.flags.reverse, []) := by
    have hh := readBytes_append v.flags.reverse []
    simpa using hh
  rw [hr]
  simp

theorem features_write_read_roundtrip_witness :
    Features.read ContextT.init (Features.write (Features.known ContextT.init)) =
      some (Features.known ContextT.init, []) :=
  features_write_read_roundtrip (Features.known ContextT.init) (Produced.known ContextT.init)
